import Mathlib

/-!
Shallow embedding of `framefixer.cpp`: a sliding-window frame-duplicate
scheduler.  Images are identified by natural numbers (`0` stands for the
empty `cv::Mat` produced by a failed read); the dissimilarity metric of the
comparison step is a parameter `score : Nat → Nat → ℚ`, standing for the
standard deviation of the per-pixel absolute difference (the concrete
pixel-level computation is embedded separately, see `stdevScore`).
Counts are naturals: in the source they are C `int`s that are only ever
decremented under a positivity guard.  Loops whose C++ termination argument
is "the target count strictly grows toward `duplicate_count`" are given an
explicit fuel that the call sites instantiate with a provably sufficient
amount.
-/

namespace Framefixer

/-- One detected distinct frame (struct `Frame` in the source). -/
structure Frame where
  data : Nat
  comp : Nat
  count : Nat
  priority : ℚ
  index : Int
deriving DecidableEq, Repr

/-- The hysteretic threshold mode: `THRESH.value` is either the strict or
the relaxed cutoff (class `Threshold` in the source). -/
inductive Mode where
  | strict
  | relaxed
deriving DecidableEq, Repr

/-- The configuration options consumed by the scheduling core. -/
structure Config where
  buffer_size : Nat
  adjustment_bound : Nat
  duplicate_count : Nat
  threshold_strict : ℚ
  threshold_relaxed : ℚ
deriving DecidableEq, Repr

/-- `THRESH.value`: the active cutoff under the given mode. -/
def Config.value (c : Config) : Mode → ℚ
  | Mode.strict => c.threshold_strict
  | Mode.relaxed => c.threshold_relaxed

/-- The scheduler state at a step boundary of `main`'s loop: the window
(`list<Frame*> buffer`), the global counters, the threshold mode, and the
contents of the local variables `tempframe`/`compframe`/`stdev` that
survive between phases.  `out` records every `VIDEO.write` call. -/
structure St where
  buffer : List Frame
  writeIndex : Nat
  readIndex : Int
  mode : Mode
  drift : Int
  driftUpdate : Int
  temp : Nat
  compT : Nat
  stdev : ℚ
  out : List Nat
deriving DecidableEq, Repr

/-- Total repeat count held in a window. -/
def totalCount (buf : List Frame) : Nat := (buf.map Frame.count).sum

/-- Index (in head-first coordinates) of the record nearest the tail that
satisfies `p`: the first hit of the source's `reverse_iterator` scans. -/
def lastIdxSat (p : Frame → Bool) : List Frame → Option Nat
  | [] => none
  | f :: rest =>
    match lastIdxSat p rest with
    | some i => some (i + 1)
    | none => if p f then some 0 else none

/-- Transfer one repeat-count unit: decrement the donor at position `d`,
increment the target at position `t` (`(*it)->count--; tofix->count++`). -/
def transferAt (buf : List Frame) (d t : Nat) : List Frame :=
  let buf1 := match buf[d]? with
    | some fd => buf.set d { fd with count := fd.count - 1 }
    | none => buf
  match buf1[t]? with
  | some ft => buf1.set t { ft with count := ft.count + 1 }
  | none => buf1

/-- The Slot Reallocator (`while (fixing && tofix->count < duplicate_count)`
in the source): repeatedly run the safe-donor pass (tail→head, first record
with `count > duplicate_count`), and only if it finds nothing the
priority-donor pass (tail→head, first record with lower priority than the
target and `count > 1`); stop when the target reaches `duplicate_count` or
neither pass can move a unit.  Each transfer raises the target's count, so
any `fuel` with `duplicate_count ≤ target count + fuel` makes the fuel
branch unreachable. -/
def adjustLoop (dup t : Nat) : Nat → List Frame → List Frame
  | 0, buf => buf
  | fuel + 1, buf =>
    match buf[t]? with
    | none => buf
    | some tofix =>
      if tofix.count < dup then
        match lastIdxSat (fun f => decide (dup < f.count)) buf with
        | some d => adjustLoop dup t fuel (transferAt buf d t)
        | none =>
          match lastIdxSat (fun f => decide (f.priority < tofix.priority) && decide (1 < f.count)) buf with
          | some d => adjustLoop dup t fuel (transferAt buf d t)
          | none => buf
      else buf

/-- Inner loop of the over-bound drift correction
(`while ((*it)->count > duplicate_count)`): shave copies off one record,
decrementing the drift per unit, breaking as soon as the drift falls below
the bound. -/
def cutRecord (dup : Nat) (bound : Int) : Nat → Int → Nat × Int
  | 0, d => (0, d)
  | cnt + 1, d =>
    if dup < cnt + 1 then
      if d - 1 < bound then (cnt, d - 1) else cutRecord dup bound cnt (d - 1)
    else (cnt + 1, d)

/-- Over-bound drift correction (`DRIFT >= adjustment_bound` branch): walk
the window head→tail while the drift is still at or above the bound,
cutting excess copies at each record. -/
def cutLoop (dup : Nat) (bound : Int) : Int → List Frame → Int × List Frame
  | d, [] => (d, [])
  | d, f :: rest =>
    if bound ≤ d then
      let p := cutRecord dup bound f.count d
      let q := cutLoop dup bound p.2 rest
      (q.1, { f with count := p.1 } :: q.2)
    else (d, f :: rest)

/-- Inner loop of the under-bound drift correction
(`while ((*it)->count < duplicate_count)`): add copies to one at-risk
record, incrementing the drift per unit, breaking as soon as the absolute
drift falls below the bound.  Fuel with `duplicate_count ≤ count + fuel`
makes the fuel branch unreachable. -/
def addRecord (dup : Nat) (bound : Int) : Nat → Nat → Int → Nat × Int
  | 0, cnt, d => (cnt, d)
  | fuel + 1, cnt, d =>
    if cnt < dup then
      if |d + 1| < bound then (cnt + 1, d + 1) else addRecord dup bound fuel (cnt + 1) (d + 1)
    else (cnt, d)

/-- Under-bound drift correction (`DRIFT <= -adjustment_bound` branch): walk
the window head→tail while the absolute drift is still at or above the
bound, raising under-count records. -/
def addLoop (dup : Nat) (bound : Int) : Int → List Frame → Int × List Frame
  | d, [] => (d, [])
  | d, f :: rest =>
    if bound ≤ |d| then
      let p := addRecord dup bound dup f.count d
      let q := addLoop dup bound p.2 rest
      (q.1, { f with count := p.1 } :: q.2)
    else (d, f :: rest)

/-- The branch of the Correcting phase on the (freshly measured or stale)
drift (source lines 360-412): within bounds, run the Slot Reallocator on
the record at the fixed middle index `buffer_size / 2` (when the window
holds fewer than `buffer_size / 2 + 1` records the source advances a
`list` iterator past the end and dereferences it — undefined behavior —
modelled as `none`); at or above the bound, cut copies head→tail;
otherwise (at or below the negated bound) add copies head→tail. -/
def correctStep (c : Config) (dr : Int) (buf : List Frame) : Option (Int × List Frame) :=
  if |dr| < (c.adjustment_bound : Int) then
    if c.buffer_size / 2 < buf.length then
      some (dr, adjustLoop c.duplicate_count (c.buffer_size / 2) (c.duplicate_count + 1) buf)
    else none
  else if (c.adjustment_bound : Int) ≤ dr then
    some (cutLoop c.duplicate_count (c.adjustment_bound : Int) dr buf)
  else
    some (addLoop c.duplicate_count (c.adjustment_bound : Int) dr buf)

/-- `DRIFT` as seen by the Correcting phase: recomputed as
`WRITE_INDEX - buffer.front()->index` when the decremented `drift_update`
counter reaches 0, otherwise the stale stored value. -/
def measuredDrift (st : St) : Int :=
  if st.driftUpdate - 1 ≤ 0 then
    match st.buffer.head? with
    | some f => (st.writeIndex : Int) - f.index
    | none => st.drift
  else st.drift

/-- The `drift_update` counter after the Correcting phase: reset to
`buffer_size` on recomputation, otherwise just decremented. -/
def nextDriftUpdate (c : Config) (st : St) : Int :=
  if st.driftUpdate - 1 ≤ 0 then (c.buffer_size : Int) else st.driftUpdate - 1

/-- The Correcting phase (source lines 355-412): decrement `drift_update`
and recompute `DRIFT` once per window cycle, then run the drift branch
`correctStep`. -/
def correctPhase (c : Config) (st : St) : Option St :=
  match correctStep c (measuredDrift st) st.buffer with
  | none => none
  | some p => some { st with drift := p.1, driftUpdate := nextDriftUpdate c st, buffer := p.2 }

/-- Result of the Filling phase: the state, the remaining source, the
`FINISHED` flag (set when `readFrame` fails), and the states visited after
each processed frame (the step boundaries inside Filling). -/
structure FillOut where
  st : St
  src : List Nat
  fin : Bool
  states : List St
deriving DecidableEq, Repr

/-- The Filling phase (`while(!full)` in the source): read frame-by-frame;
a frame matching the open record (`buffer.back()`) under the active
threshold increments its count, relaxing the threshold when the count
reaches `duplicate_count`; a non-matching frame resets the threshold to
strict and is admitted as a fresh record if the window is not full, and
otherwise ends the phase with the frame held in `tempframe`.  A failed read
(`readFrame` on EOF leaves `frame` empty, modelled as image `0`, and does
not touch `compframe`) ends the phase and sets `FINISHED`.  The window is
never empty when Filling runs; the `none` branch is unreachable. -/
def fillPhase (c : Config) (score : Nat → Nat → ℚ) : St → List Nat → FillOut
  | st, [] =>
    let st' : St := { st with readIndex := st.readIndex + 1, temp := 0 }
    ⟨st', [], true, [st']⟩
  | st, f :: rest =>
    let st0 : St := { st with readIndex := st.readIndex + 1, temp := f, compT := f }
    match st0.buffer.getLast? with
    | none => ⟨st0, rest, true, [st0]⟩
    | some back =>
      let s := score back.comp f
      if s < c.value st0.mode then
        let st1 : St := { st0 with
          stdev := s
          buffer := st0.buffer.dropLast ++ [{ back with count := back.count + 1 }]
          mode := if back.count + 1 = c.duplicate_count then Mode.relaxed else st0.mode }
        let R := fillPhase c score st1 rest
        ⟨R.st, R.src, R.fin, st1 :: R.states⟩
      else
        if st0.buffer.length < c.buffer_size then
          let st1 : St := { st0 with
            stdev := s
            mode := Mode.strict
            buffer := st0.buffer ++ [⟨f, f, 1, s, st0.readIndex⟩] }
          let R := fillPhase c score st1 rest
          ⟨R.st, R.src, R.fin, st1 :: R.states⟩
        else
          let st1 : St := { st0 with stdev := s, mode := Mode.strict }
          ⟨st1, rest, false, [st1]⟩

/-- The Evicting phase (source lines 413-425): write the head record
`count` times to the sink, remove it, and unconditionally admit a fresh
record built from `tempframe`/`compframe` with count 1, priority the last
computed `stdev`, and index the last `READ_INDEX`. -/
def evictAdmitNew (st : St) : St :=
  match st.buffer with
  | [] => st
  | f :: rest =>
    { st with
      buffer := rest ++ [⟨st.temp, st.compT, 1, st.stdev, st.readIndex⟩]
      out := st.out ++ List.replicate f.count f.data
      writeIndex := st.writeIndex + f.count }

/-- The cleanup flush (source lines 432-436): each remaining record is
written `repeatCount` times, head first. -/
def flushWrites (buf : List Frame) : List Nat :=
  (buf.map (fun f => List.replicate f.count f.data)).flatten

/-- Final flush applied to a state. -/
def flushSt (st : St) : St :=
  { st with
    out := st.out ++ flushWrites st.buffer
    writeIndex := st.writeIndex + totalCount st.buffer
    buffer := [] }

/-- Result of running the orchestration loop: final state, the step
boundary states visited, whether the middle-index access went out of
bounds (`crashed`), and whether the iteration fuel ran out (`ranOut`,
never the case when the fuel exceeds the source length). -/
structure LoopOut where
  st : St
  states : List St
  crashed : Bool
  ranOut : Bool
deriving DecidableEq, Repr

/-- The orchestration loop (`while(!FINISHED)`): Filling, then Correcting,
then Evicting; it repeats unless `FINISHED` was set during Filling.  A
cycle whose Filling did not set `FINISHED` consumed at least one source
frame, so fuel `src.length + 1` suffices. -/
def mainLoop (c : Config) (score : Nat → Nat → ℚ) : Nat → St → List Nat → LoopOut
  | 0, st, _ => ⟨st, [], false, true⟩
  | fuel + 1, st, src =>
    let F := fillPhase c score st src
    match correctPhase c F.st with
    | none => ⟨F.st, F.states, true, false⟩
    | some st2 =>
      let st3 := evictAdmitNew st2
      if F.fin then ⟨st3, F.states ++ [st2, st3], false, false⟩
      else
        let R := mainLoop c score fuel st3 F.src
        ⟨R.st, F.states ++ [st2, st3] ++ R.states, R.crashed, R.ranOut⟩

/-- The whole program on a frame source (lines 316-436): read the first
frame (on failure the loop never runs and the flush writes nothing), seed
the window with it at count 1, priority `0` (the initial value of `stdev`)
and index 0, run the orchestration loop, then flush the remaining window.
On a crash (out-of-bounds middle access) the model stops at the offending
state. -/
def runM (c : Config) (score : Nat → Nat → ℚ) (src : List Nat) : LoopOut :=
  match src with
  | [] =>
    let st0 : St := ⟨[], 0, 0, Mode.strict, 0, 0, 0, 0, 0, []⟩
    ⟨st0, [st0], false, false⟩
  | f :: rest =>
    let st0 : St := ⟨[⟨f, f, 1, 0, 0⟩], 0, 0, Mode.strict, 0, 0, f, f, 0, []⟩
    let R := mainLoop c score (rest.length + 1) st0 rest
    if R.crashed then { R with states := st0 :: R.states }
    else
      let stF := flushSt R.st
      ⟨stF, st0 :: (R.states ++ [stF]), false, R.ranOut⟩

/-- The SIGINT handler (`signal_handler` in the source): it sets
`FINISHED`, reports, releases the capture and the writer, and calls
`exit(1)`.  No buffered record is written: the produced file holds exactly
the frames written before the signal, and the process exit status is 1. -/
def signalHandler (st : St) : Nat × List Nat := (1, st.out)

/-- The dissimilarity metric used for the concrete runs: identical images
score 0, distinct images score 1. -/
def natScore (a b : Nat) : ℚ := if a = b then 0 else 1

/-- The default threshold `0.5`, written as a normalized rational so that
concrete runs reduce inside the kernel. -/
def qHalf : ℚ := ⟨1, 2, by decide, by decide⟩

/-- The default relaxed threshold `0.25`. -/
def qQuarter : ℚ := ⟨1, 4, by decide, by decide⟩

/-- The default configuration (`buffer_size=7`, `adjustment_bound=5`,
`duplicate_count=2`, thresholds `0.5`/`0.25`). -/
def cfgD : Config := ⟨7, 5, 2, qHalf, qQuarter⟩

/-- The default configuration with `buffer_size=3`. -/
def cfg3 : Config := ⟨3, 5, 2, qHalf, qQuarter⟩

/-- The default configuration with `buffer_size=1` and
`duplicate_count=1`. -/
def cfg11 : Config := ⟨1, 5, 1, qHalf, qQuarter⟩

/-! ### Properties of the tail→head donor search -/

theorem lastIdxSat_some_spec (p : Frame → Bool) :
    ∀ (l : List Frame) (i : Nat), lastIdxSat p l = some i →
      ∃ f, l[i]? = some f ∧ p f = true := by
  intro l
  induction l with
  | nil => intro i h; simp [lastIdxSat] at h
  | cons f rest ih =>
    intro i h
    simp only [lastIdxSat] at h
    cases hrest : lastIdxSat p rest with
    | some j =>
      rw [hrest] at h
      obtain ⟨g, hg, hpg⟩ := ih j hrest
      cases h
      exact ⟨g, by simpa using hg, hpg⟩
    | none =>
      rw [hrest] at h
      by_cases hp : p f
      · simp [hp] at h
        cases h
        exact ⟨f, by simp, hp⟩
      · simp [hp] at h

theorem lastIdxSat_none_spec (p : Frame → Bool) :
    ∀ (l : List Frame), lastIdxSat p l = none → ∀ f ∈ l, p f = false := by
  intro l
  induction l with
  | nil => intro _ f hf; simp at hf
  | cons g rest ih =>
    intro h f hf
    simp only [lastIdxSat] at h
    cases hrest : lastIdxSat p rest with
    | some j => rw [hrest] at h; cases h
    | none =>
      rw [hrest] at h
      by_cases hp : p g
      · simp [hp] at h
      · rcases List.mem_cons.mp hf with rfl | hf'
        · simpa using hp
        · exact ih hrest f hf'

/-! ### Properties of a one-unit transfer -/

theorem totalCount_set :
    ∀ (buf : List Frame) (i : Nat) (f g : Frame), buf[i]? = some f →
      totalCount (buf.set i g) + f.count = totalCount buf + g.count := by
  intro buf
  induction buf with
  | nil => intro i f g h; simp at h
  | cons x rest ih =>
    intro i f g h
    cases i with
    | zero =>
      simp at h
      subst h
      simp [totalCount, List.set]
      ring
    | succ j =>
      simp at h
      have := ih j f g h
      simp [totalCount, List.set] at this ⊢
      omega

theorem transferAt_length (buf : List Frame) (d t : Nat) :
    (transferAt buf d t).length = buf.length := by
  unfold transferAt
  cases hd : buf[d]? <;> simp only []
  · cases ht : buf[t]? <;> simp_all [List.length_set]
  · cases ht : (buf.set d _)[t]? <;> simp_all [List.length_set]

theorem transferAt_target (buf : List Frame) (d t : Nat) (fd ft : Frame)
    (hd : buf[d]? = some fd) (ht : buf[t]? = some ft) (hne : d ≠ t) :
    (transferAt buf d t)[t]? = some { ft with count := ft.count + 1 } := by
  unfold transferAt
  rw [hd]
  dsimp only
  have ht1 : (buf.set d { fd with count := fd.count - 1 })[t]? = some ft := by
    rw [List.getElem?_set_ne hne]; exact ht
  rw [ht1]
  have htlen : t < (buf.set d { fd with count := fd.count - 1 }).length := by
    rw [List.length_set]
    exact (List.getElem?_eq_some.mp ht).1
  simpa using List.getElem?_set_eq_of_lt { ft with count := ft.count + 1 } htlen

theorem transferAt_mem (buf : List Frame) (d t : Nat) (fd ft : Frame)
    (hd : buf[d]? = some fd) (ht : buf[t]? = some ft) (hne : d ≠ t) :
    ∀ g ∈ transferAt buf d t,
      g ∈ buf ∨ g = { fd with count := fd.count - 1 } ∨
        g = { ft with count := ft.count + 1 } := by
  intro g hg
  unfold transferAt at hg
  rw [hd] at hg
  dsimp only at hg
  cases ht1 : (buf.set d { fd with count := fd.count - 1 })[t]? with
  | none =>
    rw [ht1] at hg
    rcases List.mem_or_eq_of_mem_set hg with h | h
    · exact Or.inl h
    · exact Or.inr (Or.inl h)
  | some ft1 =>
    rw [ht1] at hg
    rcases List.mem_or_eq_of_mem_set hg with h | h
    · rcases List.mem_or_eq_of_mem_set h with h' | h'
      · exact Or.inl h'
      · exact Or.inr (Or.inl h')
    · rw [List.getElem?_set_ne hne, ht] at ht1
      cases ht1
      subst h
      exact Or.inr (Or.inr rfl)

theorem transferAt_totalCount (buf : List Frame) (d t : Nat) (fd ft : Frame)
    (hd : buf[d]? = some fd) (ht : buf[t]? = some ft) (hne : d ≠ t)
    (hfd : 1 ≤ fd.count) :
    totalCount (transferAt buf d t) = totalCount buf := by
  unfold transferAt
  rw [hd]
  dsimp only
  have ht1 : (buf.set d { fd with count := fd.count - 1 })[t]? = some ft := by
    rw [List.getElem?_set_ne hne]; exact ht
  rw [ht1]
  dsimp only
  have h1 := totalCount_set buf d fd { fd with count := fd.count - 1 } hd
  have h2 := totalCount_set (buf.set d { fd with count := fd.count - 1 }) t ft
    { ft with count := ft.count + 1 } ht1
  simp at h1 h2
  omega

/-! ### Properties of the Slot Reallocator loop -/

theorem adjustLoop_spec (dup t : Nat) :
    ∀ (fuel : Nat) (buf : List Frame) (tofix : Frame),
      buf[t]? = some tofix → dup ≤ tofix.count + fuel →
      ∃ tofix', (adjustLoop dup t fuel buf)[t]? = some tofix' ∧
        tofix'.priority = tofix.priority ∧
        tofix.count ≤ tofix'.count ∧
        (dup ≤ tofix.count → tofix'.count = tofix.count) ∧
        (tofix.count < dup → tofix'.count ≤ dup) ∧
        (dup ≤ tofix'.count ∨
          ((∀ f ∈ adjustLoop dup t fuel buf, f.count ≤ dup) ∧
           (∀ f ∈ adjustLoop dup t fuel buf,
             ¬(f.priority < tofix'.priority ∧ 1 < f.count)))) ∧
        (adjustLoop dup t fuel buf).length = buf.length ∧
        totalCount (adjustLoop dup t fuel buf) = totalCount buf := by
  intro fuel
  induction fuel with
  | zero =>
    intro buf tofix ht hle
    refine ⟨tofix, ?_, rfl, le_refl _, fun _ => rfl, fun h => by omega, ?_, rfl, rfl⟩
    · simp [adjustLoop, ht]
    · left; omega
  | succ fuel ih =>
    intro buf tofix ht hle
    by_cases hc : tofix.count < dup
    · cases hsafe : lastIdxSat (fun f => decide (dup < f.count)) buf with
      | some d =>
        obtain ⟨fd, hfd, hp⟩ := lastIdxSat_some_spec _ buf d hsafe
        have hdp : dup < fd.count := by simpa using hp
        have hne : d ≠ t := by
          intro hdt
          subst hdt
          rw [ht] at hfd
          cases hfd
          omega
        have htar := transferAt_target buf d t fd tofix hfd ht hne
        have heq : adjustLoop dup t (fuel + 1) buf =
            adjustLoop dup t fuel (transferAt buf d t) := by
          simp only [adjustLoop, ht, if_pos hc, hsafe]
        obtain ⟨tofix', h1, h2, h3, h4, h5, h6, h7, h8⟩ :=
          ih (transferAt buf d t) { tofix with count := tofix.count + 1 } htar (by simpa using by omega)
        refine ⟨tofix', by rw [heq]; exact h1, by simpa using h2, by simp at h3; omega,
          fun h => by omega, ?_, ?_, ?_, ?_⟩
        · intro _
          simp at h4 h5
          omega
        · rw [heq]
          rcases h6 with h6 | ⟨h6a, h6b⟩
          · left; omega
          · right; exact ⟨h6a, h6b⟩
        · rw [heq, h7, transferAt_length]
        · rw [heq, h8, transferAt_totalCount buf d t fd tofix hfd ht hne (by omega)]
      | none =>
        cases hpri : lastIdxSat
            (fun f => decide (f.priority < tofix.priority) && decide (1 < f.count)) buf with
        | some d =>
          obtain ⟨fd, hfd, hp⟩ := lastIdxSat_some_spec _ buf d hpri
          have hdp : fd.priority < tofix.priority ∧ 1 < fd.count := by simpa using hp
          have hne : d ≠ t := by
            intro hdt
            subst hdt
            rw [ht] at hfd
            cases hfd
            exact absurd hdp.1 (lt_irrefl _)
          have htar := transferAt_target buf d t fd tofix hfd ht hne
          have heq : adjustLoop dup t (fuel + 1) buf =
              adjustLoop dup t fuel (transferAt buf d t) := by
            simp only [adjustLoop, ht, if_pos hc, hsafe, hpri]
          obtain ⟨tofix', h1, h2, h3, h4, h5, h6, h7, h8⟩ :=
            ih (transferAt buf d t) { tofix with count := tofix.count + 1 } htar
              (by simpa using by omega)
          refine ⟨tofix', by rw [heq]; exact h1, by simpa using h2, by simp at h3; omega,
            fun h => by omega, ?_, ?_, ?_, ?_⟩
          · intro _
            simp at h4 h5
            omega
          · rw [heq]
            rcases h6 with h6 | ⟨h6a, h6b⟩
            · left; omega
            · right; exact ⟨h6a, h6b⟩
          · rw [heq, h7, transferAt_length]
          · rw [heq, h8, transferAt_totalCount buf d t fd tofix hfd ht hne (by omega)]
        | none =>
          have heq : adjustLoop dup t (fuel + 1) buf = buf := by
            simp only [adjustLoop, ht, if_pos hc, hsafe, hpri]
          refine ⟨tofix, by rw [heq]; exact ht, rfl, le_refl _, fun _ => rfl, fun _ => by omega,
            ?_, by rw [heq], by rw [heq]⟩
          right
          rw [heq]
          constructor
          · intro f hf
            have := lastIdxSat_none_spec _ buf hsafe f hf
            simp at this
            omega
          · rintro f hf ⟨hlt, hcnt⟩
            have hfalse := lastIdxSat_none_spec _ buf hpri f hf
            simp [hlt, hcnt] at hfalse
    · have heq : adjustLoop dup t (fuel + 1) buf = buf := by
        simp only [adjustLoop, ht, if_neg hc]
      exact ⟨tofix, by rw [heq]; exact ht, rfl, le_refl _, fun _ => rfl, fun h => absurd h hc,
        Or.inl (by omega), by rw [heq], by rw [heq]⟩

theorem adjustLoop_count_ge_one (dup t : Nat) :
    ∀ (fuel : Nat) (buf : List Frame), (∀ f ∈ buf, 1 ≤ f.count) →
      ∀ g ∈ adjustLoop dup t fuel buf, 1 ≤ g.count := by
  intro fuel
  induction fuel with
  | zero =>
    intro buf h g hg
    exact h g (by simpa [adjustLoop] using hg)
  | succ fuel ih =>
    intro buf h g hg
    rw [adjustLoop] at hg
    cases ht : buf[t]? with
    | none => rw [ht] at hg; exact h g hg
    | some tofix =>
      rw [ht] at hg
      dsimp only at hg
      by_cases hc : tofix.count < dup
      · rw [if_pos hc] at hg
        cases hsafe : lastIdxSat (fun f => decide (dup < f.count)) buf with
        | some d =>
          rw [hsafe] at hg
          obtain ⟨fd, hfd, hp⟩ := lastIdxSat_some_spec _ buf d hsafe
          have hdp : dup < fd.count := by simpa using hp
          have hne : d ≠ t := by
            intro hdt; subst hdt; rw [ht] at hfd; cases hfd; omega
          refine ih (transferAt buf d t) ?_ g hg
          intro f hf
          rcases transferAt_mem buf d t fd tofix hfd ht hne f hf with hm | hm | hm
          · exact h f hm
          · subst hm; simp; omega
          · subst hm; simp
        | none =>
          rw [hsafe] at hg
          cases hpri : lastIdxSat
              (fun f => decide (f.priority < tofix.priority) && decide (1 < f.count)) buf with
          | some d =>
            rw [hpri] at hg
            obtain ⟨fd, hfd, hp⟩ := lastIdxSat_some_spec _ buf d hpri
            have hdp : fd.priority < tofix.priority ∧ 1 < fd.count := by simpa using hp
            have hne : d ≠ t := by
              intro hdt; subst hdt; rw [ht] at hfd; cases hfd
              exact absurd hdp.1 (lt_irrefl _)
            refine ih (transferAt buf d t) ?_ g hg
            intro f hf
            rcases transferAt_mem buf d t fd tofix hfd ht hne f hf with hm | hm | hm
            · exact h f hm
            · subst hm; simp; omega
            · subst hm; simp
          | none => rw [hpri] at hg; exact h g hg
      · rw [if_neg hc] at hg
        exact h g hg

/-! ### Properties of the Drift Controller loops -/

theorem forall₂_self (R : Frame → Frame → Prop) (hR : ∀ f, R f f) :
    ∀ l : List Frame, List.Forall₂ R l l := by
  intro l
  induction l with
  | nil => exact List.Forall₂.nil
  | cons f rest ih => exact List.Forall₂.cons (hR f) ih

theorem cutRecord_spec (dup : Nat) (bound : Int) :
    ∀ (cnt : Nat) (d : Int),
      (cutRecord dup bound cnt d).1 ≤ cnt ∧
      (dup ≤ (cutRecord dup bound cnt d).1 ∨ (cutRecord dup bound cnt d).1 = cnt) ∧
      d - (cutRecord dup bound cnt d).2 =
        (cnt : Int) - (cutRecord dup bound cnt d).1 ∧
      (cutRecord dup bound cnt d).2 ≤ d ∧
      (bound ≤ d → bound - 1 ≤ (cutRecord dup bound cnt d).2 ∧
        ((cutRecord dup bound cnt d).2 < bound ∨ (cutRecord dup bound cnt d).1 ≤ dup)) := by
  intro cnt
  induction cnt with
  | zero =>
    intro d
    simp [cutRecord]
    omega
  | succ cnt ih =>
    intro d
    rw [cutRecord]
    by_cases h1 : dup < cnt + 1
    · rw [if_pos h1]
      by_cases h2 : d - 1 < bound
      · rw [if_pos h2]
        simp
        omega
      · rw [if_neg h2]
        have := ih (d - 1)
        constructor
        · omega
        constructor
        · rcases this.2.1 with h | h
          · left; exact h
          · left; omega
        constructor
        · omega
        constructor
        · omega
        · intro _
          exact ⟨by omega, (this.2.2.2.2 (by omega)).2⟩
    · rw [if_neg h1]
      simp
      omega

theorem cutLoop_not_entered (dup : Nat) (bound : Int) (d : Int) (buf : List Frame)
    (h : ¬ bound ≤ d) : cutLoop dup bound d buf = (d, buf) := by
  cases buf with
  | nil => simp [cutLoop]
  | cons f rest => simp [cutLoop, if_neg h]

theorem cutLoop_spec (dup : Nat) (bound : Int) :
    ∀ (buf : List Frame) (d : Int),
      (cutLoop dup bound d buf).2.length = buf.length ∧
      (cutLoop dup bound d buf).1 ≤ d ∧
      d - (cutLoop dup bound d buf).1 =
        (totalCount buf : Int) - totalCount (cutLoop dup bound d buf).2 ∧
      (bound ≤ d → bound - 1 ≤ (cutLoop dup bound d buf).1 ∧
        ((cutLoop dup bound d buf).1 < bound ∨
          ∀ f ∈ (cutLoop dup bound d buf).2, f.count ≤ dup)) ∧
      List.Forall₂ (fun f g => g.count ≤ f.count ∧ (dup ≤ g.count ∨ g.count = f.count) ∧
        g.data = f.data ∧ g.comp = f.comp ∧ g.priority = f.priority ∧ g.index = f.index)
        buf (cutLoop dup bound d buf).2 := by
  intro buf
  induction buf with
  | nil =>
    intro d
    simp [cutLoop, totalCount]
    omega
  | cons f rest ih =>
    intro d
    by_cases h : bound ≤ d
    · have hrec := cutRecord_spec dup bound f.count d
      have hrest := ih (cutRecord dup bound f.count d).2
      rw [cutLoop, if_pos h]
      dsimp only
      refine ⟨by simpa using hrest.1, ?_, ?_, ?_, ?_⟩
      · omega
      · have hcons : totalCount ({ f with count := (cutRecord dup bound f.count d).1 } ::
            (cutLoop dup bound (cutRecord dup bound f.count d).2 rest).2) =
            (cutRecord dup bound f.count d).1 +
              totalCount (cutLoop dup bound (cutRecord dup bound f.count d).2 rest).2 := by
          simp [totalCount]
        rw [hcons]
        have := hrest.2.1
        have := hrest.2.2.1
        simp [totalCount] at *
        omega
      · intro _
        obtain ⟨hr1, hr2⟩ := hrec.2.2.2.2 h
        rcases hr2 with hlt | hle
        · rw [cutLoop_not_entered dup bound _ rest (by omega)]
          exact ⟨by omega, Or.inl (by simpa using hlt)⟩
        · by_cases h2 : bound ≤ (cutRecord dup bound f.count d).2
          · obtain ⟨hq1, hq2⟩ := hrest.2.2.2.1 h2
            refine ⟨by omega, ?_⟩
            rcases hq2 with hq2 | hq2
            · exact Or.inl hq2
            · refine Or.inr ?_
              intro g hg
              rcases List.mem_cons.mp hg with rfl | hg'
              · simpa using hle
              · exact hq2 g hg'
          · rw [cutLoop_not_entered dup bound _ rest h2]
            exact ⟨by omega, Or.inl (by simpa using by omega)⟩
      · refine List.Forall₂.cons ?_ hrest.2.2.2.2
        simp
        omega
    · rw [cutLoop_not_entered dup bound d _ h]
      exact ⟨rfl, le_refl _, by simp, fun hb => absurd hb h,
        forall₂_self _ (fun f => by simp) _⟩

theorem addRecord_spec (dup : Nat) (bound : Int) :
    ∀ (fuel cnt : Nat) (d : Int), dup ≤ cnt + fuel →
      cnt ≤ (addRecord dup bound fuel cnt d).1 ∧
      ((addRecord dup bound fuel cnt d).1 ≤ dup ∨ (addRecord dup bound fuel cnt d).1 = cnt) ∧
      (addRecord dup bound fuel cnt d).2 - d = (addRecord dup bound fuel cnt d).1 - (cnt : Int) ∧
      (d ≤ -bound → 1 ≤ bound →
        (addRecord dup bound fuel cnt d).2 ≤ -(bound - 1) ∧
        (|(addRecord dup bound fuel cnt d).2| < bound ∨
          ((addRecord dup bound fuel cnt d).2 ≤ -bound ∧ dup ≤ (addRecord dup bound fuel cnt d).1))) := by
  intro fuel
  induction fuel with
  | zero =>
    intro cnt d hle
    simp [addRecord]
    omega
  | succ fuel ih =>
    intro cnt d hle
    rw [addRecord]
    by_cases h1 : cnt < dup
    · rw [if_pos h1]
      by_cases h2 : |d + 1| < bound
      · rw [if_pos h2]
        dsimp only
        refine ⟨by omega, by omega, by omega, fun hd hb => ?_⟩
        rw [abs_lt] at h2
        exact ⟨by omega, Or.inl (by rw [abs_lt]; omega)⟩
      · rw [if_neg h2]
        have := ih (cnt + 1) (d + 1) (by omega)
        constructor
        · omega
        constructor
        · omega
        constructor
        · omega
        · intro hd hb
          rw [abs_lt, not_and_or, not_lt, not_lt] at h2
          have hd1 : d + 1 ≤ -bound := by omega
          exact this.2.2.2 hd1 hb
    · rw [if_neg h1]
      simp
      omega

theorem addLoop_not_entered (dup : Nat) (bound : Int) (d : Int) (buf : List Frame)
    (h : ¬ bound ≤ |d|) : addLoop dup bound d buf = (d, buf) := by
  cases buf with
  | nil => simp [addLoop]
  | cons f rest => simp [addLoop, if_neg h]

theorem addLoop_spec (dup : Nat) (bound : Int) (hb : 1 ≤ bound) :
    ∀ (buf : List Frame) (d : Int), d ≤ -bound →
      (addLoop dup bound d buf).2.length = buf.length ∧
      d ≤ (addLoop dup bound d buf).1 ∧
      (addLoop dup bound d buf).1 ≤ -(bound - 1) ∧
      (addLoop dup bound d buf).1 - d =
        (totalCount (addLoop dup bound d buf).2 : Int) - totalCount buf ∧
      (|(addLoop dup bound d buf).1| < bound ∨
        ((addLoop dup bound d buf).1 ≤ -bound ∧
          ∀ f ∈ (addLoop dup bound d buf).2, dup ≤ f.count)) ∧
      List.Forall₂ (fun f g => f.count ≤ g.count ∧ (g.count ≤ dup ∨ g.count = f.count) ∧
        g.data = f.data ∧ g.comp = f.comp ∧ g.priority = f.priority ∧ g.index = f.index)
        buf (addLoop dup bound d buf).2 := by
  intro buf
  induction buf with
  | nil =>
    intro d hd
    simp [addLoop, totalCount]
    omega
  | cons f rest ih =>
    intro d hd
    have hent : bound ≤ |d| := by rw [le_abs]; omega
    have hrec := addRecord_spec dup bound dup f.count d (by omega)
    obtain ⟨hr1, hr2, hr3, hr4⟩ := hrec
    obtain ⟨hr5, hr6⟩ := hr4 hd hb
    rw [addLoop, if_pos hent]
    dsimp only
    rcases hr6 with hlt | ⟨hle, hdup⟩
    · rw [addLoop_not_entered dup bound _ rest (by omega)]
      refine ⟨by simp, by omega, by omega, ?_, Or.inl (by simpa using hlt), ?_⟩
      · simp [totalCount]
        omega
      · exact List.Forall₂.cons (by simp; omega) (forall₂_self _ (fun f => by simp) _)
    · have hrest := ih (addRecord dup bound dup f.count d).2 hle
      refine ⟨by simpa using hrest.1, by omega, by omega, ?_, ?_, ?_⟩
      · have := hrest.2.2.2.1
        simp [totalCount] at *
        omega
      · rcases hrest.2.2.2.2.1 with h | ⟨h1, h2⟩
        · exact Or.inl (by simpa using h)
        · refine Or.inr ⟨by simpa using h1, ?_⟩
          intro g hg
          rcases List.mem_cons.mp hg with rfl | hg'
          · simpa using hdup
          · exact h2 g hg'
      · exact List.Forall₂.cons (by simp; omega) hrest.2.2.2.2.2

/-! ### Properties of the Correcting phase -/

theorem forall₂_mem_right (R : Frame → Frame → Prop) :
    ∀ (l l' : List Frame), List.Forall₂ R l l' → ∀ g ∈ l', ∃ f ∈ l, R f g := by
  intro l l' h
  induction h with
  | nil => intro g hg; simp at hg
  | cons hR _ ih =>
    intro g hg
    rcases List.mem_cons.mp hg with rfl | hg'
    · exact ⟨_, List.mem_cons_self .., hR⟩
    · obtain ⟨f, hf, hRf⟩ := ih g hg'
      exact ⟨f, List.mem_cons_of_mem _ hf, hRf⟩

theorem adjustLoop_length (dup t : Nat) :
    ∀ (fuel : Nat) (buf : List Frame), (adjustLoop dup t fuel buf).length = buf.length := by
  intro fuel
  induction fuel with
  | zero => intro buf; rfl
  | succ fuel ih =>
    intro buf
    cases ht : buf[t]? with
    | none => simp [adjustLoop, ht]
    | some tofix =>
      by_cases hc : tofix.count < dup
      · cases hsafe : lastIdxSat (fun f => decide (dup < f.count)) buf with
        | some d =>
          simp only [adjustLoop, ht, if_pos hc, hsafe]
          rw [ih, transferAt_length]
        | none =>
          cases hpri : lastIdxSat
              (fun f => decide (f.priority < tofix.priority) && decide (1 < f.count)) buf with
          | some d =>
            simp only [adjustLoop, ht, if_pos hc, hsafe, hpri]
            rw [ih, transferAt_length]
          | none => simp only [adjustLoop, ht, if_pos hc, hsafe, hpri]
      · simp only [adjustLoop, ht, if_neg hc]

theorem addRecord_cnt_le (dup : Nat) (bound : Int) :
    ∀ (fuel cnt : Nat) (d : Int), cnt ≤ (addRecord dup bound fuel cnt d).1 := by
  intro fuel
  induction fuel with
  | zero => intro cnt d; exact le_refl _
  | succ fuel ih =>
    intro cnt d
    rw [addRecord]
    by_cases h1 : cnt < dup
    · rw [if_pos h1]
      by_cases h2 : |d + 1| < bound
      · rw [if_pos h2]; exact Nat.le_succ _
      · rw [if_neg h2]
        exact le_trans (Nat.le_succ _) (ih (cnt + 1) (d + 1))
    · rw [if_neg h1]

theorem addLoop_len_cnt (dup : Nat) (bound : Int) :
    ∀ (buf : List Frame) (d : Int), (addLoop dup bound d buf).2.length = buf.length ∧
      List.Forall₂ (fun f g => f.count ≤ g.count) buf (addLoop dup bound d buf).2 := by
  intro buf
  induction buf with
  | nil => intro d; exact ⟨rfl, List.Forall₂.nil⟩
  | cons f rest ih =>
    intro d
    by_cases h : bound ≤ |d|
    · rw [addLoop, if_pos h]
      dsimp only
      have := ih (addRecord dup bound dup f.count d).2
      exact ⟨by simpa using this.1,
        List.Forall₂.cons (by simpa using addRecord_cnt_le dup bound dup f.count d) this.2⟩
    · rw [addLoop_not_entered dup bound d _ h]
      exact ⟨rfl, forall₂_self _ (fun f => Nat.le_refl f.count) _⟩

theorem correctStep_inv (c : Config) (dr : Int) (buf : List Frame) (p : Int × List Frame)
    (h : correctStep c dr buf = some p) (hdup : 1 ≤ c.duplicate_count)
    (hcnt : ∀ f ∈ buf, 1 ≤ f.count) :
    p.2.length = buf.length ∧ ∀ f ∈ p.2, 1 ≤ f.count := by
  unfold correctStep at h
  split at h
  · split at h
    · injection h with h
      subst h
      dsimp only
      rw [adjustLoop_length]
      exact ⟨rfl, adjustLoop_count_ge_one _ _ _ _ hcnt⟩
    · cases h
  · split at h
    · injection h with h
      subst h
      have hc := cutLoop_spec c.duplicate_count (c.adjustment_bound : Int) buf dr
      refine ⟨hc.1, ?_⟩
      intro g hg
      obtain ⟨f, hf, hR⟩ := forall₂_mem_right _ _ _ hc.2.2.2.2 g hg
      obtain ⟨hR1, hR2, hR3⟩ := hR
      have := hcnt f hf
      omega
    · injection h with h
      subst h
      have ha := addLoop_len_cnt c.duplicate_count (c.adjustment_bound : Int) buf dr
      refine ⟨ha.1, ?_⟩
      intro g hg
      obtain ⟨f, hf, hR⟩ := forall₂_mem_right _ _ _ ha.2 g hg
      have := hcnt f hf
      omega

theorem correctStep_drift (c : Config) (dr : Int) (buf : List Frame) (p : Int × List Frame)
    (hb : 1 ≤ c.adjustment_bound) (h : correctStep c dr buf = some p) :
    |p.1| < (c.adjustment_bound : Int) ∨
    ((c.adjustment_bound : Int) ≤ p.1 ∧ ∀ f ∈ p.2, f.count ≤ c.duplicate_count) ∨
    (p.1 ≤ -(c.adjustment_bound : Int) ∧ ∀ f ∈ p.2, c.duplicate_count ≤ f.count) := by
  have hb' : (1 : Int) ≤ (c.adjustment_bound : Int) := by exact_mod_cast hb
  unfold correctStep at h
  split at h
  · rename_i hlt
    split at h
    · injection h with h
      subst h
      exact Or.inl hlt
    · cases h
  · rename_i hge
    split at h
    · rename_i hcut
      injection h with h
      subst h
      obtain ⟨hc1, hc2⟩ :=
        (cutLoop_spec c.duplicate_count (c.adjustment_bound : Int) buf dr).2.2.2.1 hcut
      by_cases hq : (cutLoop c.duplicate_count (c.adjustment_bound : Int) dr buf).1 <
          (c.adjustment_bound : Int)
      · exact Or.inl (abs_lt.mpr ⟨by omega, hq⟩)
      · rcases hc2 with hlt | hforall
        · exact absurd hlt hq
        · exact Or.inr (Or.inl ⟨by omega, hforall⟩)
    · rename_i hnocut
      injection h with h
      subst h
      have hdr : dr ≤ -(c.adjustment_bound : Int) := by
        rw [not_lt, le_abs] at hge
        omega
      have ha := addLoop_spec c.duplicate_count (c.adjustment_bound : Int) hb' buf dr hdr
      rcases ha.2.2.2.2.1 with hlt | ⟨h1, h2⟩
      · exact Or.inl hlt
      · exact Or.inr (Or.inr ⟨h1, h2⟩)

theorem correctPhase_fields (c : Config) (st st' : St) (h : correctPhase c st = some st') :
    st'.mode = st.mode ∧ st'.temp = st.temp ∧ st'.compT = st.compT ∧ st'.stdev = st.stdev ∧
    st'.readIndex = st.readIndex ∧ st'.out = st.out ∧ st'.writeIndex = st.writeIndex := by
  unfold correctPhase at h
  cases hs : correctStep c (measuredDrift st) st.buffer with
  | none => rw [hs] at h; cases h
  | some p =>
    rw [hs] at h
    injection h with h
    subst h
    exact ⟨rfl, rfl, rfl, rfl, rfl, rfl, rfl⟩

theorem correctPhase_step (c : Config) (st st' : St) (h : correctPhase c st = some st') :
    correctStep c (measuredDrift st) st.buffer = some (st'.drift, st'.buffer) := by
  unfold correctPhase at h
  cases hs : correctStep c (measuredDrift st) st.buffer with
  | none => rw [hs] at h; cases h
  | some p =>
    rw [hs] at h
    injection h with h
    subst h
    rfl

theorem correctPhase_buffer_inv (c : Config) (st st' : St) (h : correctPhase c st = some st')
    (hdup : 1 ≤ c.duplicate_count)
    (hlen : st.buffer.length ≤ c.buffer_size) (hcnt : ∀ f ∈ st.buffer, 1 ≤ f.count) :
    st'.buffer.length ≤ c.buffer_size ∧ ∀ f ∈ st'.buffer, 1 ≤ f.count := by
  have hs := correctPhase_step c st st' h
  have hi := correctStep_inv c (measuredDrift st) st.buffer _ hs hdup hcnt
  have h1 : st'.buffer.length = st.buffer.length := hi.1
  exact ⟨by omega, hi.2⟩

/-! ### Properties of the Filling phase and of eviction -/

theorem correctStep_length (c : Config) (dr : Int) (buf : List Frame) (p : Int × List Frame)
    (h : correctStep c dr buf = some p) : p.2.length = buf.length := by
  unfold correctStep at h
  split at h
  · split at h
    · injection h with h
      subst h
      exact adjustLoop_length _ _ _ _
    · cases h
  · split at h
    · injection h with h
      subst h
      exact (cutLoop_spec c.duplicate_count (c.adjustment_bound : Int) buf dr).1
    · injection h with h
      subst h
      exact (addLoop_len_cnt c.duplicate_count (c.adjustment_bound : Int) buf dr).1

theorem fillPhase_inv (c : Config) (score : Nat → Nat → ℚ) :
    ∀ (src : List Nat) (st : St),
      st.buffer.length ≤ c.buffer_size → (∀ f ∈ st.buffer, 1 ≤ f.count) →
      ((fillPhase c score st src).st.buffer.length ≤ c.buffer_size ∧
        ∀ f ∈ (fillPhase c score st src).st.buffer, 1 ≤ f.count) ∧
      ∀ s ∈ (fillPhase c score st src).states,
        s.buffer.length ≤ c.buffer_size ∧ ∀ f ∈ s.buffer, 1 ≤ f.count := by
  intro src
  induction src with
  | nil =>
    intro st hlen hcnt
    exact ⟨⟨hlen, hcnt⟩, by intro s hs; simp [fillPhase] at hs; subst hs; exact ⟨hlen, hcnt⟩⟩
  | cons f rest ih =>
    intro st hlen hcnt
    rw [fillPhase]
    dsimp only
    cases hback : st.buffer.getLast? with
    | none => exact ⟨⟨hlen, hcnt⟩, by intro s hs; simp at hs; subst hs; exact ⟨hlen, hcnt⟩⟩
    | some back =>
      dsimp only
      have hne : st.buffer ≠ [] := by
        intro hnil
        rw [hnil] at hback
        cases hback
      have hpos : 1 ≤ st.buffer.length := List.length_pos.mpr hne
      by_cases hm : score back.comp f < c.value st.mode
      · rw [if_pos hm]
        dsimp only
        have hlen1 : (st.buffer.dropLast ++ [{ back with count := back.count + 1 }]).length ≤
            c.buffer_size := by
          rw [List.length_append, List.length_dropLast]
          simp
          omega
        have hcnt1 : ∀ g ∈ st.buffer.dropLast ++ [{ back with count := back.count + 1 }],
            1 ≤ g.count := by
          intro g hg
          rcases List.mem_append.mp hg with hg' | hg'
          · exact hcnt g (List.dropLast_subset _ hg')
          · simp at hg'
            subst hg'
            simp
        have H := ih ({ st with
            readIndex := st.readIndex + 1, temp := f, compT := f,
            stdev := score back.comp f,
            buffer := st.buffer.dropLast ++ [{ back with count := back.count + 1 }],
            mode := if back.count + 1 = c.duplicate_count then Mode.relaxed else st.mode } : St)
          hlen1 hcnt1
        refine ⟨H.1, ?_⟩
        intro s hs
        rcases List.mem_cons.mp hs with rfl | hs'
        · exact ⟨hlen1, hcnt1⟩
        · exact H.2 s hs'
      · rw [if_neg hm]
        by_cases hroom : st.buffer.length < c.buffer_size
        · rw [if_pos hroom]
          dsimp only
          have hlen1 : (st.buffer ++
              [(⟨f, f, 1, score back.comp f, st.readIndex + 1⟩ : Frame)]).length ≤
              c.buffer_size := by
            rw [List.length_append]
            simp
            omega
          have hcnt1 : ∀ g ∈ st.buffer ++
              [(⟨f, f, 1, score back.comp f, st.readIndex + 1⟩ : Frame)], 1 ≤ g.count := by
            intro g hg
            rcases List.mem_append.mp hg with hg' | hg'
            · exact hcnt g hg'
            · simp at hg'
              subst hg'
              simp
          have H := ih ({ st with
              readIndex := st.readIndex + 1, temp := f, compT := f,
              stdev := score back.comp f,
              mode := Mode.strict,
              buffer := st.buffer ++
                [(⟨f, f, 1, score back.comp f, st.readIndex + 1⟩ : Frame)] } : St)
            hlen1 hcnt1
          refine ⟨H.1, ?_⟩
          intro s hs
          rcases List.mem_cons.mp hs with rfl | hs'
          · exact ⟨hlen1, hcnt1⟩
          · exact H.2 s hs'
        · rw [if_neg hroom]
          exact ⟨⟨hlen, hcnt⟩, by intro s hs; simp at hs; subst hs; exact ⟨hlen, hcnt⟩⟩

theorem fillPhase_src_length (c : Config) (score : Nat → Nat → ℚ) :
    ∀ (src : List Nat) (st : St),
      (fillPhase c score st src).src.length ≤ src.length ∧
      ((fillPhase c score st src).fin = false →
        (fillPhase c score st src).src.length < src.length) := by
  intro src
  induction src with
  | nil =>
    intro st
    refine ⟨le_refl _, fun h => ?_⟩
    simp [fillPhase] at h
  | cons f rest ih =>
    intro st
    rw [fillPhase]
    dsimp only
    cases hback : st.buffer.getLast? with
    | none => exact ⟨by simp, fun _ => by simp⟩
    | some back =>
      dsimp only
      by_cases hm : score back.comp f < c.value st.mode
      · rw [if_pos hm]
        dsimp only
        exact ⟨le_trans (ih _).1 (by simp), fun _ => Nat.lt_succ_of_le (ih _).1⟩
      · rw [if_neg hm]
        by_cases hroom : st.buffer.length < c.buffer_size
        · rw [if_pos hroom]
          dsimp only
          exact ⟨le_trans (ih _).1 (by simp), fun _ => Nat.lt_succ_of_le (ih _).1⟩
        · rw [if_neg hroom]
          exact ⟨by simp, fun _ => by simp⟩

theorem fillPhase_nonempty (c : Config) (score : Nat → Nat → ℚ) :
    ∀ (src : List Nat) (st : St), st.buffer ≠ [] →
      (fillPhase c score st src).st.buffer ≠ [] := by
  intro src
  induction src with
  | nil => intro st h; simpa [fillPhase] using h
  | cons f rest ih =>
    intro st h
    rw [fillPhase]
    dsimp only
    cases hback : st.buffer.getLast? with
    | none => simpa using h
    | some back =>
      dsimp only
      by_cases hm : score back.comp f < c.value st.mode
      · rw [if_pos hm]
        dsimp only
        exact ih _ (by simp)
      · rw [if_neg hm]
        by_cases hroom : st.buffer.length < c.buffer_size
        · rw [if_pos hroom]
          dsimp only
          exact ih _ (by simp)
        · rw [if_neg hroom]
          simpa using h

theorem fillPhase_fin_temp (c : Config) (score : Nat → Nat → ℚ) :
    ∀ (src : List Nat) (st : St), st.buffer ≠ [] →
      (fillPhase c score st src).fin = true → (fillPhase c score st src).st.temp = 0 := by
  intro src
  induction src with
  | nil => intro st _ _; rfl
  | cons f rest ih =>
    intro st h
    rw [fillPhase]
    dsimp only
    cases hback : st.buffer.getLast? with
    | none =>
      exact absurd (List.getLast?_eq_none_iff.mp hback) h
    | some back =>
      dsimp only
      by_cases hm : score back.comp f < c.value st.mode
      · rw [if_pos hm]
        dsimp only
        exact ih _ (by simp)
      · rw [if_neg hm]
        by_cases hroom : st.buffer.length < c.buffer_size
        · rw [if_pos hroom]
          dsimp only
          exact ih _ (by simp)
        · rw [if_neg hroom]
          intro hfin
          cases hfin

theorem evictAdmitNew_inv (c : Config) (st : St) (hlen : st.buffer.length ≤ c.buffer_size)
    (hcnt : ∀ f ∈ st.buffer, 1 ≤ f.count) :
    (evictAdmitNew st).buffer.length ≤ c.buffer_size ∧
      ∀ f ∈ (evictAdmitNew st).buffer, 1 ≤ f.count := by
  unfold evictAdmitNew
  cases hb : st.buffer with
  | nil => exact ⟨hlen, hcnt⟩
  | cons f0 rest =>
    dsimp only
    constructor
    · rw [List.length_append]
      rw [hb] at hlen
      simp at hlen ⊢
      omega
    · intro g hg
      rcases List.mem_append.mp hg with hg' | hg'
      · exact hcnt g (hb ▸ List.mem_cons_of_mem f0 hg')
      · simp at hg'
        subst hg'
        simp

theorem mainLoop_inv (c : Config) (score : Nat → Nat → ℚ) (hdup : 1 ≤ c.duplicate_count) :
    ∀ (fuel : Nat) (st : St) (src : List Nat),
      st.buffer.length ≤ c.buffer_size → (∀ f ∈ st.buffer, 1 ≤ f.count) →
      ((mainLoop c score fuel st src).st.buffer.length ≤ c.buffer_size ∧
        ∀ f ∈ (mainLoop c score fuel st src).st.buffer, 1 ≤ f.count) ∧
      ∀ s ∈ (mainLoop c score fuel st src).states,
        s.buffer.length ≤ c.buffer_size ∧ ∀ f ∈ s.buffer, 1 ≤ f.count := by
  intro fuel
  induction fuel with
  | zero =>
    intro st src hlen hcnt
    exact ⟨⟨hlen, hcnt⟩, by intro s hs; simp [mainLoop] at hs⟩
  | succ fuel ih =>
    intro st src hlen hcnt
    rw [mainLoop]
    dsimp only
    obtain ⟨Hf, Hs⟩ := fillPhase_inv c score src st hlen hcnt
    cases hc : correctPhase c (fillPhase c score st src).st with
    | none => exact ⟨Hf, Hs⟩
    | some st2 =>
      dsimp only
      have H2 := correctPhase_buffer_inv c _ st2 hc hdup Hf.1 Hf.2
      have H3 := evictAdmitNew_inv c st2 H2.1 H2.2
      by_cases hfin : (fillPhase c score st src).fin = true
      · rw [if_pos hfin]
        refine ⟨H3, ?_⟩
        intro s hs
        rcases List.mem_append.mp hs with hs' | hs'
        · exact Hs s hs'
        · rcases List.mem_cons.mp hs' with rfl | hs''
          · exact H2
          · simp at hs''
            subst hs''
            exact H3
      · rw [if_neg hfin]
        dsimp only
        have H4 := ih (evictAdmitNew st2) (fillPhase c score st src).src H3.1 H3.2
        refine ⟨H4.1, ?_⟩
        intro s hs
        rcases List.mem_append.mp hs with hs' | hs'
        · rcases List.mem_append.mp hs' with hs'' | hs''
          · exact Hs s hs''
          · rcases List.mem_cons.mp hs'' with rfl | hs₃
            · exact H2
            · simp at hs₃
              subst hs₃
              exact H3
        · exact H4.2 s hs'

/-! ### Hysteresis of the threshold during Filling -/

theorem fillPhase_allmatch (c : Config) (score : Nat → Nat → ℚ) :
    ∀ (frames : List Nat) (st : St) (pre : List Frame) (b : Frame),
      st.buffer = pre ++ [b] →
      (∀ f ∈ frames, score b.comp f < c.threshold_strict ∧
        score b.comp f < c.threshold_relaxed) →
      (fillPhase c score st frames).fin = true ∧
      (fillPhase c score st frames).st.buffer =
        pre ++ [{ b with count := b.count + frames.length }] ∧
      (fillPhase c score st frames).st.mode =
        (if b.count + 1 ≤ c.duplicate_count ∧ c.duplicate_count ≤ b.count + frames.length
          then Mode.relaxed else st.mode) := by
  intro frames
  induction frames with
  | nil =>
    intro st pre b hbuf hmatch
    refine ⟨rfl, by simpa using hbuf, ?_⟩
    simp only [List.length_nil]
    rw [if_neg (show ¬(b.count + 1 ≤ c.duplicate_count ∧
      c.duplicate_count ≤ b.count + 0) by omega)]
    rfl
  | cons f rest ih =>
    intro st pre b hbuf hmatch
    rw [fillPhase]
    dsimp only
    have hlast : st.buffer.getLast? = some b := by
      rw [hbuf]
      exact List.getLast?_concat _
    rw [hlast]
    dsimp only
    have hm : score b.comp f < c.value st.mode := by
      cases st.mode
      · exact (hmatch f (by simp)).1
      · exact (hmatch f (by simp)).2
    rw [if_pos hm]
    dsimp only
    have hdrop : st.buffer.dropLast = pre := by
      rw [hbuf]
      exact List.dropLast_concat
    have H := ih ({ st with
        readIndex := st.readIndex + 1, temp := f, compT := f,
        stdev := score b.comp f,
        buffer := st.buffer.dropLast ++ [{ b with count := b.count + 1 }],
        mode := if b.count + 1 = c.duplicate_count then Mode.relaxed else st.mode } : St)
      pre { b with count := b.count + 1 }
      (by dsimp only; rw [hdrop])
      (by
        intro f' hf'
        exact hmatch f' (List.mem_cons_of_mem f hf'))
    refine ⟨H.1, ?_, ?_⟩
    · rw [H.2.1]
      show pre ++ [({ b with count := b.count + 1 + rest.length } : Frame)] =
        pre ++ [({ b with count := b.count + (rest.length + 1) } : Frame)]
      rw [show b.count + 1 + rest.length = b.count + (rest.length + 1) by omega]
    · rw [H.2.2]
      simp only [List.length_cons]
      by_cases h1 : b.count + 1 = c.duplicate_count
      · rw [if_neg (show ¬(b.count + 1 + 1 ≤ c.duplicate_count ∧
            c.duplicate_count ≤ b.count + 1 + rest.length) by omega),
          if_pos h1,
          if_pos (show b.count + 1 ≤ c.duplicate_count ∧
            c.duplicate_count ≤ b.count + (rest.length + 1) by omega)]
      · by_cases hc2 : b.count + 1 + 1 ≤ c.duplicate_count ∧
            c.duplicate_count ≤ b.count + 1 + rest.length
        · rw [if_pos hc2,
            if_pos (show b.count + 1 ≤ c.duplicate_count ∧
              c.duplicate_count ≤ b.count + (rest.length + 1) by omega)]
        · rw [if_neg hc2, if_neg h1,
            if_neg (show ¬(b.count + 1 ≤ c.duplicate_count ∧
              c.duplicate_count ≤ b.count + (rest.length + 1)) by omega)]

theorem fillPhase_nomatch_full (c : Config) (score : Nat → Nat → ℚ)
    (st : St) (f : Nat) (rest : List Nat) (back : Frame)
    (hb : st.buffer.getLast? = some back)
    (hm : ¬ score back.comp f < c.value st.mode)
    (hfull : ¬ st.buffer.length < c.buffer_size) :
    fillPhase c score st (f :: rest) =
      ⟨{ st with
          readIndex := st.readIndex + 1
          temp := f
          compT := f
          stdev := score back.comp f
          mode := Mode.strict }, rest, false,
        [{ st with
          readIndex := st.readIndex + 1
          temp := f
          compT := f
          stdev := score back.comp f
          mode := Mode.strict }]⟩ := by
  rw [fillPhase]
  dsimp only
  rw [hb]
  dsimp only
  rw [if_neg hm, if_neg hfull]

/-! ### The record admitted after a failed read -/

theorem evictAdmitNew_last (st : St) (hne : st.buffer ≠ []) :
    (evictAdmitNew st).buffer.getLast? =
      some ⟨st.temp, st.compT, 1, st.stdev, st.readIndex⟩ ∧
    (evictAdmitNew st).mode = st.mode := by
  unfold evictAdmitNew
  cases hb : st.buffer with
  | nil => exact absurd hb hne
  | cons f0 rest => exact ⟨List.getLast?_concat _, rfl⟩

theorem correctPhase_nonempty (c : Config) (st st' : St) (h : correctPhase c st = some st')
    (hne : st.buffer ≠ []) : st'.buffer ≠ [] := by
  have hs := correctPhase_step c st st' h
  have hl := correctStep_length c (measuredDrift st) st.buffer _ hs
  intro hnil
  rw [hnil] at hl
  exact hne (List.length_eq_zero.mp (by simpa using hl.symm))

/-- After a Filling phase that ended because the read failed (`FINISHED`
set), the Correcting phase preserves the empty `tempframe`, and the
Evicting phase admits a record whose image is the empty read result, with
count 1 and the latest `stdev` and `READ_INDEX`. -/
theorem eofCycle_phantom (c : Config) (score : Nat → Nat → ℚ)
    (src : List Nat) (st st2 : St) (hne : st.buffer ≠ [])
    (hfin : (fillPhase c score st src).fin = true)
    (hc : correctPhase c (fillPhase c score st src).st = some st2) :
    (evictAdmitNew st2).buffer.getLast? = some ⟨0, st2.compT, 1, st2.stdev, st2.readIndex⟩ := by
  have htemp : (fillPhase c score st src).st.temp = 0 :=
    fillPhase_fin_temp c score src st hne hfin
  have hfe := correctPhase_fields c _ st2 hc
  have hne2 : st2.buffer ≠ [] :=
    correctPhase_nonempty c _ st2 hc (fillPhase_nonempty c score src st hne)
  have := (evictAdmitNew_last st2 hne2).1
  rw [this, hfe.2.1, htemp]

/-! ### The Frame Differencer (`matchFrames`, source lines 80-97) -/

/-- Per-pixel absolute difference of two comparison images
(`absdiff(a,b,diff)`). -/
def absdiffL (a b : List ℚ) : List ℚ := List.zipWith (fun x y => |x - y|) a b

/-- Mean of a difference map (the mean computed by `meanStdDev`). -/
def listMean (l : List ℚ) : ℚ := l.sum / (l.length : ℚ)

/-- Variance of a difference map: mean squared deviation from the mean. -/
def listVar (l : List ℚ) : ℚ := listMean (l.map (fun x => (x - listMean l) ^ 2))

/-- The dissimilarity score of `matchFrames`: the standard deviation of the
per-pixel absolute difference of the two comparison images
(`stdev = std.at<double>(0)`). -/
noncomputable def stdevScore (a b : List ℚ) : ℝ :=
  Real.sqrt ((listVar (absdiffL a b) : ℚ) : ℝ)

/-- The match decision of `matchFrames`: the frames match exactly when the
dissimilarity score is strictly below the active threshold
(`stdev < THRESH.value`). -/
noncomputable def matchFrames (t : ℝ) (a b : List ℚ) : Prop := stdevScore a b < t

/-! ### Concrete scenario inputs -/

/-- Scenario B window: target (index 2) at count 1, every neighbor at
exactly count 2, exactly one neighbor (the tail record) of strictly lower
priority than the target's priority 4. -/
def scenB : List Frame :=
  [⟨10, 10, 2, 5, 0⟩, ⟨11, 11, 2, 6, 1⟩, ⟨12, 12, 1, 4, 2⟩, ⟨13, 13, 2, 7, 3⟩, ⟨14, 14, 2, 2, 4⟩]

/-- Scenario B variant with two lower-priority candidates (head priority 1
and tail priority 2): the tail-most one must donate. -/
def scenB2 : List Frame :=
  [⟨10, 10, 2, 1, 0⟩, ⟨11, 11, 2, 6, 1⟩, ⟨12, 12, 1, 4, 2⟩, ⟨13, 13, 2, 7, 3⟩, ⟨14, 14, 2, 2, 4⟩]

/-- Scenario C window: counts 4, 3, 2 with `duplicate_count = 2`. -/
def scenC : List Frame := [⟨1, 1, 4, 0, 0⟩, ⟨2, 2, 3, 1, 1⟩, ⟨3, 3, 2, 1, 2⟩]

/-! ### Claim theorems -/

/-- C1: whenever the Correcting phase runs the Slot Reallocator on a target
below `duplicate_count`, the loop repeatedly moves single units — the safe
pass (tail→head, first record with `repeatCount > duplicate_count`) is
retried first after every transfer, the priority pass (tail→head, first
record of strictly lower priority with `repeatCount > 1`) runs only when
the safe pass finds nothing — and stops when the target reaches
`duplicate_count` (a target starting below it never overshoots) or neither
pass can move a unit, in which case no record exceeds `duplicate_count` and
no record has both lower priority than the target and `repeatCount > 1`;
window length and total repeat count are conserved (the Correcting phase
calls the loop with fuel `duplicate_count + 1`, which always satisfies the
fuel hypothesis).  In Scenario B, the single lower-priority neighbor drops
to 1 and the target rises to 2; with two lower-priority candidates the
tail-most donates. -/
theorem slotReallocator_spec :
    (∀ (dup t fuel : Nat) (buf : List Frame) (tofix : Frame),
      buf[t]? = some tofix → dup ≤ tofix.count + fuel →
      ∃ tofix', (adjustLoop dup t fuel buf)[t]? = some tofix' ∧
        tofix'.priority = tofix.priority ∧
        (tofix.count < dup → tofix'.count ≤ dup) ∧
        (dup ≤ tofix'.count ∨
          ((∀ f ∈ adjustLoop dup t fuel buf, f.count ≤ dup) ∧
           (∀ f ∈ adjustLoop dup t fuel buf,
             ¬(f.priority < tofix'.priority ∧ 1 < f.count)))) ∧
        (adjustLoop dup t fuel buf).length = buf.length ∧
        totalCount (adjustLoop dup t fuel buf) = totalCount buf) ∧
    adjustLoop 2 2 3 scenB =
      [⟨10, 10, 2, 5, 0⟩, ⟨11, 11, 2, 6, 1⟩, ⟨12, 12, 2, 4, 2⟩,
        ⟨13, 13, 2, 7, 3⟩, ⟨14, 14, 1, 2, 4⟩] ∧
    adjustLoop 2 2 3 scenB2 =
      [⟨10, 10, 2, 1, 0⟩, ⟨11, 11, 2, 6, 1⟩, ⟨12, 12, 2, 4, 2⟩,
        ⟨13, 13, 2, 7, 3⟩, ⟨14, 14, 1, 2, 4⟩] := by
  refine ⟨?_, by decide, by decide⟩
  intro dup t fuel buf tofix ht hle
  obtain ⟨tofix', h1, h2, _, _, h5, h6, h7, h8⟩ := adjustLoop_spec dup t fuel buf tofix ht hle
  exact ⟨tofix', h1, h2, h5, h6, h7, h8⟩

/-- Witness for C1: the general part applied to the Scenario B window,
length conservation extracted. -/
theorem slotReallocator_spec_witness :
    (adjustLoop 2 2 3 scenB).length = scenB.length := by
  obtain ⟨tofix', h⟩ :=
    slotReallocator_spec.1 2 2 3 scenB ⟨12, 12, 1, 4, 2⟩ (by decide) (by decide)
  exact h.2.2.2.2.1

/-- C2: for every run configuration with positive `buffer_size` and
`duplicate_count` and every source, every state at a step boundary of the
orchestration loop keeps the window at no more than `buffer_size` records,
all with `repeatCount ≥ 1`: admission, reallocation transfers, drift
correction and eviction-with-readmission all preserve the invariant. -/
theorem window_invariant (c : Config) (score : Nat → Nat → ℚ) (src : List Nat)
    (hbs : 1 ≤ c.buffer_size) (hdup : 1 ≤ c.duplicate_count) :
    List.Forall (fun s => s.buffer.length ≤ c.buffer_size ∧
      List.Forall (fun f => 1 ≤ f.count) s.buffer) (runM c score src).states := by
  rw [List.forall_iff_forall_mem]
  have conv : ∀ (s : St), s.buffer.length ≤ c.buffer_size → (∀ f ∈ s.buffer, 1 ≤ f.count) →
      s.buffer.length ≤ c.buffer_size ∧ List.Forall (fun f => 1 ≤ f.count) s.buffer :=
    fun s h1 h2 => ⟨h1, List.forall_iff_forall_mem.mpr h2⟩
  cases src with
  | nil =>
    intro s hs
    simp [runM] at hs
    subst hs
    exact conv _ (by simp) (by intro g hg; simp at hg)
  | cons f rest =>
    intro s hs
    rw [runM] at hs
    dsimp only at hs
    have H := mainLoop_inv c score hdup (rest.length + 1)
      ⟨[⟨f, f, 1, 0, 0⟩], 0, 0, Mode.strict, 0, 0, f, f, 0, []⟩ rest
      (by simpa using hbs) (by intro g hg; simp at hg; subst hg; simp)
    by_cases hcr : (mainLoop c score (rest.length + 1)
        ⟨[⟨f, f, 1, 0, 0⟩], 0, 0, Mode.strict, 0, 0, f, f, 0, []⟩ rest).crashed = true
    · rw [if_pos hcr] at hs
      rcases List.mem_cons.mp hs with rfl | hs'
      · exact conv _ (by simpa using hbs) (by intro g hg; simp at hg; subst hg; simp)
      · exact conv _ (H.2 s hs').1 (H.2 s hs').2
    · rw [if_neg hcr] at hs
      dsimp only at hs
      rcases List.mem_cons.mp hs with rfl | hs'
      · exact conv _ (by simpa using hbs) (by intro g hg; simp at hg; subst hg; simp)
      · rcases List.mem_append.mp hs' with hs'' | hs''
        · exact conv _ (H.2 s hs'').1 (H.2 s hs'').2
        · simp at hs''
          subst hs''
          exact conv _ (by simp [flushSt]) (by intro g hg; simp [flushSt] at hg)

/-- Witness for C2: the final state of a concrete run satisfies the window
bound. -/
theorem window_invariant_witness :
    (runM cfg3 natScore [1, 1, 2]).st.buffer.length ≤ cfg3.buffer_size := by
  have h := window_invariant cfg3 natScore [1, 1, 2] (by decide) (by decide)
  rw [List.forall_iff_forall_mem] at h
  exact (h _ (by decide : (runM cfg3 natScore [1, 1, 2]).st ∈
    (runM cfg3 natScore [1, 1, 2]).states)).1

/-- C3: when the measured drift is at or above `adjustment_bound`, the
Drift Controller walks the window head→tail, shaving copies only off
records above `duplicate_count`, one drift unit per copy (conservation:
drift decrease equals the total count removed; no record is cut below
`duplicate_count`; data, comparison image, priority and index are
untouched), and stops as soon as the drift falls below the bound — it never
overshoots below `adjustment_bound - 1` — or the window is exhausted with
every record at or below `duplicate_count`.  On Scenario C
(`adjustment_bound = 5`, measured drift 7, counts 4,3,2 at
`duplicate_count = 2`) it cuts head→tail down to drift 4 < 5. -/
theorem driftController_cut :
    (∀ (dup : Nat) (bound d : Int) (buf : List Frame), bound ≤ d →
      bound - 1 ≤ (cutLoop dup bound d buf).1 ∧
      ((cutLoop dup bound d buf).1 < bound ∨
        ∀ f ∈ (cutLoop dup bound d buf).2, f.count ≤ dup) ∧
      d - (cutLoop dup bound d buf).1 =
        (totalCount buf : Int) - totalCount (cutLoop dup bound d buf).2 ∧
      List.Forall₂ (fun f g => g.count ≤ f.count ∧ (dup ≤ g.count ∨ g.count = f.count) ∧
        g.data = f.data ∧ g.comp = f.comp ∧ g.priority = f.priority ∧ g.index = f.index)
        buf (cutLoop dup bound d buf).2) ∧
    cutLoop 2 5 7 scenC = (4, [⟨1, 1, 2, 0, 0⟩, ⟨2, 2, 2, 1, 1⟩, ⟨3, 3, 2, 1, 2⟩]) := by
  refine ⟨?_, by decide⟩
  intro dup bound d buf hd
  obtain ⟨h1, h2, h3, h4, h5⟩ := cutLoop_spec dup bound buf d
  exact ⟨(h4 hd).1, (h4 hd).2, h3, h5⟩

/-- Witness for C3: the general part applied to Scenario C, the
no-overshoot bound extracted. -/
theorem driftController_cut_witness :
    (5 : Int) - 1 ≤ (cutLoop 2 5 7 scenC).1 :=
  (driftController_cut.1 2 5 7 scenC (by decide)).1

/-- C5: whenever the Correcting phase completes (the middle-index access
was in bounds), the resulting drift is strictly within
`adjustment_bound` in absolute value, except when the scan exhausted the
window: with the drift still at or above the bound every record is at or
below `duplicate_count` (nothing left to cut), and with the drift still at
or below the negated bound every record is at or above `duplicate_count`
(nothing left to raise). -/
theorem drift_bound_after_correcting (c : Config) (st st' : St)
    (hb : 1 ≤ c.adjustment_bound) (h : correctPhase c st = some st') :
    |st'.drift| < (c.adjustment_bound : Int) ∨
    ((c.adjustment_bound : Int) ≤ st'.drift ∧
      List.Forall (fun f => f.count ≤ c.duplicate_count) st'.buffer) ∨
    (st'.drift ≤ -(c.adjustment_bound : Int) ∧
      List.Forall (fun f => c.duplicate_count ≤ f.count) st'.buffer) := by
  have hs := correctPhase_step c st st' h
  have hd := correctStep_drift c (measuredDrift st) st.buffer _ hb hs
  rcases hd with h1 | ⟨h1, h2⟩ | ⟨h1, h2⟩
  · exact Or.inl h1
  · exact Or.inr (Or.inl ⟨h1, List.forall_iff_forall_mem.mpr h2⟩)
  · exact Or.inr (Or.inr ⟨h1, List.forall_iff_forall_mem.mpr h2⟩)

/-- A concrete state on which the Correcting phase completes: two buffered
records, stale drift counter. -/
def stW5 : St := ⟨[⟨1, 1, 1, 0, 0⟩, ⟨2, 2, 1, 1, 1⟩], 0, 1, Mode.strict, 0, 5, 2, 2, 1, []⟩

/-- The Correcting phase output on `stW5`. -/
def stW5' : St := ⟨[⟨1, 1, 1, 0, 0⟩, ⟨2, 2, 1, 1, 1⟩], 0, 1, Mode.strict, 0, 4, 2, 2, 1, []⟩

/-- Witness for C5: the drift bound holds after a concrete Correcting
phase. -/
theorem drift_bound_after_correcting_witness :
    |stW5'.drift| < (cfg3.adjustment_bound : Int) ∨
    ((cfg3.adjustment_bound : Int) ≤ stW5'.drift ∧
      List.Forall (fun f => f.count ≤ cfg3.duplicate_count) stW5'.buffer) ∨
    (stW5'.drift ≤ -(cfg3.adjustment_bound : Int) ∧
      List.Forall (fun f => cfg3.duplicate_count ≤ f.count) stW5'.buffer) :=
  drift_bound_after_correcting cfg3 stW5 stW5' (by decide) (by decide)

/-- The state reached mid-run (end of the first Filling phase) from source
frames 1,1,2,3,3,3,4,4 under the default configuration: four buffered
records with repeat counts [2,1,3,2]. -/
def stC4 : St :=
  (fillPhase cfgD natScore ⟨[⟨1, 1, 1, 0, 0⟩], 0, 0, Mode.strict, 0, 0, 1, 1, 0, []⟩
    [1, 2, 3, 3, 3, 4, 4]).st

/-- C4 counterexample: at a reachable mid-run state whose four buffered
records hold counts [2,1,3,2], the SIGINT handler writes nothing — none of
the four records is flushed, while the claimed flush would write 8 frames —
and the process exits with status 1, not success. -/
theorem cancellation_counterexample :
    stC4.buffer.map Frame.count = [2, 1, 3, 2] ∧
    stC4 ∈ (runM cfgD natScore [1, 1, 2, 3, 3, 3, 4, 4]).states ∧
    signalHandler stC4 = (1, []) ∧
    flushWrites stC4.buffer = [1, 1, 2, 3, 3, 3, 4, 4] ∧
    (flushWrites stC4.buffer).length = 8 ∧
    ¬ (1 : Nat) = 0 := by decide

/-- C4 amended: when the cancellation signal arrives mid-run, the handler
sets `FINISHED`, releases the capture and the writer, and terminates the
process immediately with exit status 1; the buffered records are not
flushed — the output holds exactly the frames written before the signal.
(The flush pass runs only on the normal end-of-stream path.)  At the
reachable state with buffered counts [2,1,3,2] and nothing yet written,
the handler therefore emits nothing and exits with status 1. -/
theorem cancellation_amended :
    (∀ st : St, (signalHandler st).1 = 1 ∧ (signalHandler st).2 = st.out) ∧
    signalHandler stC4 = (1, []) ∧ stC4.out = [] := by
  exact ⟨fun st => ⟨rfl, rfl⟩, by decide, by decide⟩

/-- The run of the whole program with `duplicate_count = 1` and
`buffer_size = 1` on two identical source frames. -/
def runC6 : LoopOut := runM cfg11 natScore [1, 1]

/-- C6 counterexample: with `duplicate_count = 1` (a positive value the
claim quantifies over), the open record's `repeatCount` equals
`duplicate_count` already at the first step boundary, no source frame ever
fails to match, and yet the active threshold is strict in every reachable
state of the run — the relaxed threshold is never activated, because the
code only relaxes when an increment makes the count exactly equal
`duplicate_count`, which cannot happen when counts start at 1 =
`duplicate_count`. -/
theorem hysteresis_counterexample :
    cfg11.duplicate_count = 1 ∧
    (runC6.states.head?.map (fun s => s.buffer.getLast?.map Frame.count) =
      some (some 1)) ∧
    List.Forall (fun s => s.mode = Mode.strict) runC6.states ∧
    runC6.crashed = false ∧ runC6.st.out = [1, 1, 0] := by decide

/-- C6 amended: for `duplicate_count ≥ 2` the hysteresis works as claimed
during Filling — a fresh open record (count 1, strict threshold) followed
by consecutive matching frames ends with the relaxed threshold exactly when
`duplicate_count ≤ 1 + n` (the relax fires when a match raises the count to
exactly `duplicate_count` and then persists across further matches), and a
frame that fails to match under the active threshold resets the threshold
to strict, ending the phase with the frame pending admission when the
window is full; the Correcting phase and eviction never change the
threshold mode.  For `duplicate_count = 1` the relax condition
`2 ≤ duplicate_count` is unsatisfiable, so the threshold stays strict. -/
theorem hysteresis_amended :
    (∀ (c : Config) (score : Nat → Nat → ℚ) (frames : List Nat) (st : St)
        (pre : List Frame) (b : Frame),
      st.buffer = pre ++ [b] → b.count = 1 → st.mode = Mode.strict →
      (∀ f ∈ frames, score b.comp f < c.threshold_strict ∧
        score b.comp f < c.threshold_relaxed) →
      (fillPhase c score st frames).st.mode =
        (if 2 ≤ c.duplicate_count ∧ c.duplicate_count ≤ 1 + frames.length
          then Mode.relaxed else Mode.strict)) ∧
    (∀ (c : Config) (score : Nat → Nat → ℚ) (st : St) (f : Nat) (rest : List Nat)
        (back : Frame),
      st.buffer.getLast? = some back →
      ¬ score back.comp f < c.value st.mode → ¬ st.buffer.length < c.buffer_size →
      (fillPhase c score st (f :: rest)).st.mode = Mode.strict ∧
      (fillPhase c score st (f :: rest)).fin = false ∧
      (fillPhase c score st (f :: rest)).st.temp = f) ∧
    (∀ (c : Config) (st st' : St), correctPhase c st = some st' → st'.mode = st.mode) ∧
    (∀ st : St, (evictAdmitNew st).mode = st.mode) := by
  refine ⟨?_, ?_, ?_, ?_⟩
  · intro c score frames st pre b hbuf hcount hmode hmatch
    have H := (fillPhase_allmatch c score frames st pre b hbuf hmatch).2.2
    rw [H, hcount, hmode]
  · intro c score st f rest back hb hm hfull
    rw [fillPhase_nomatch_full c score st f rest back hb hm hfull]
    exact ⟨rfl, rfl, rfl⟩
  · intro c st st' h
    exact (correctPhase_fields c st st' h).1
  · intro st
    unfold evictAdmitNew
    cases st.buffer <;> rfl

/-- Witness for C6's amended theorem: a fresh record followed by one
matching frame under `duplicate_count = 2` ends with the relaxed
threshold. -/
theorem hysteresis_amended_witness :
    (fillPhase cfg3 natScore ⟨[⟨1, 1, 1, 0, 0⟩], 0, 0, Mode.strict, 0, 0, 1, 1, 0, []⟩
        [1]).st.mode =
      (if 2 ≤ cfg3.duplicate_count ∧ cfg3.duplicate_count ≤ 1 + [1].length
        then Mode.relaxed else Mode.strict) := by
  exact hysteresis_amended.1 cfg3 natScore [1]
    ⟨[⟨1, 1, 1, 0, 0⟩], 0, 0, Mode.strict, 0, 0, 1, 1, 0, []⟩ [] ⟨1, 1, 1, 0, 0⟩
    rfl rfl rfl (by decide)

/-- The Scenario A run: frames A,A,B,C,C as 1,1,2,3,3 with
`duplicate_count = 2` and `buffer_size = 3`. -/
def runA : LoopOut := runM cfg3 natScore [1, 1, 2, 3, 3]

/-- C7 counterexample: on the Scenario A source the output does contain B
(image 2), but six sink writes occur, not five; the drift stays 0 — within
bounds at every step boundary — so the drift-correction tolerance the claim
grants does not apply. -/
theorem scenarioA_counterexample :
    runA.st.out.length = 6 ∧
    ¬ runA.st.out.length = 5 ∧
    (2 ∈ runA.st.out) ∧
    List.Forall (fun s => |s.drift| < (cfg3.adjustment_bound : Int)) runA.states ∧
    runA.crashed = false := by decide

/-- C7 amended: for frames A,A,B,C,C with `duplicate_count = 2` and
`buffer_size = 3`, the output contains at least one copy of B and the
records derived from source frames are emitted exactly 5 times in total;
one additional write of the empty record admitted after the failed final
read brings the sink-write total to 6.  (Larger buffers whose middle index
is at least 3 instead reach the out-of-bounds middle-index access, see the
C9 theorem.) -/
theorem scenarioA_amended :
    (2 ∈ runA.st.out) ∧
    (runA.st.out.filter (fun x => decide (x ≠ 0))).length = 5 ∧
    runA.st.out.length = 6 ∧
    runA.st.out.count 0 = 1 ∧
    runA.st.out = [1, 2, 2, 3, 3, 0] := by decide

/-- C8: the Frame Differencer is deterministic and pure — for a fixed
active threshold, scoring a pair of comparison images is a function of the
pixel data alone, so re-scoring yields the identical score — and the match
decision holds exactly when the score, the standard deviation of the
per-pixel absolute difference, is strictly below the active threshold;
equivalently (for a positive threshold) exactly when the rational variance
of the difference map is strictly below the squared threshold, which makes
the decision decidable by exact arithmetic. -/
theorem matchFrames_deterministic :
    ∀ (a b : List ℚ) (t : ℚ), 0 < t →
      (stdevScore a b = stdevScore a b) ∧
      (matchFrames (t : ℝ) a b ↔ stdevScore a b < (t : ℝ)) ∧
      (matchFrames (t : ℝ) a b ↔ listVar (absdiffL a b) < t ^ 2) := by
  intro a b t ht
  refine ⟨rfl, Iff.rfl, ?_⟩
  unfold matchFrames stdevScore
  rw [Real.sqrt_lt' (by exact_mod_cast ht)]
  constructor
  · intro h
    exact_mod_cast h
  · intro h
    exact_mod_cast h

/-- Witness for C8: the decision rule at a concrete threshold and concrete
one-pixel images. -/
theorem matchFrames_deterministic_witness :
    matchFrames ((1 : ℚ) : ℝ) [0] [0] ↔ listVar (absdiffL [0] [0]) < (1 : ℚ) ^ 2 :=
  (matchFrames_deterministic [0] [0] 1 (by decide)).2.2

/-- The run of the whole program on a source of two identical frames under
the default configuration. -/
def runB : LoopOut := runM cfgD natScore [1, 1]

/-- C9: the claim is the code's implicit safety assumption, and the code
violates it.  With the default configuration, a source whose frames are all
mutual duplicates exhausts during the first Filling phase with a single
buffered record; the Correcting phase is entered with measured drift 0
(within bounds) and a window of 1 < `buffer_size / 2 + 1 = 4` records, and
the source then advances the `list` iterator `buffer_size / 2 = 3`
positions past a 1-element window and dereferences it — an out-of-bounds
access (undefined behavior), modelled as the crash outcome. -/
theorem middleIndex_out_of_bounds :
    runB.crashed = true ∧
    runB.st.buffer.length = 1 ∧
    cfgD.buffer_size / 2 + 1 = 4 ∧
    ¬ cfgD.buffer_size / 2 < runB.st.buffer.length ∧
    measuredDrift runB.st = 0 ∧
    |measuredDrift runB.st| < (cfgD.adjustment_bound : Int) ∧
    correctPhase cfgD runB.st = none := by decide

/-- The run of the whole program on four distinct frames (the first
duplicated once) under the default configuration. -/
def runD : LoopOut := runM cfgD natScore [1, 1, 2, 3, 4]

/-- C10: when the source signals end-of-stream during Filling, the cycle
still runs Correcting and Evicting, and the readmission step
unconditionally appends a record whose image is the empty result of the
failed read (image 0), with `repeatCount` 1, the latest `stdev` as priority
and the failed read's `READ_INDEX`; the flush then writes it once.
Concretely, the 5-frame source 1,1,2,3,4 (4 distinct frames) produces 6
sink writes from 5 emitted records — 4 source-derived records plus the
phantom — so records emitted exceed distinct frames detected, and the
empty image appears in the output exactly once. -/
theorem eof_phantom_record :
    (∀ (c : Config) (score : Nat → Nat → ℚ) (src : List Nat) (st st2 : St),
      st.buffer ≠ [] → (fillPhase c score st src).fin = true →
      correctPhase c (fillPhase c score st src).st = some st2 →
      (evictAdmitNew st2).buffer.getLast? =
        some ⟨0, st2.compT, 1, st2.stdev, st2.readIndex⟩) ∧
    runD.st.out = [1, 2, 3, 4, 4, 0] ∧
    runD.st.out.count 0 = 1 ∧
    runD.st.out.length = 6 ∧
    (runD.st.out.filter (fun x => decide (x ≠ 0))).length = 5 := by
  exact ⟨fun c score src st st2 => eofCycle_phantom c score src st st2,
    by decide, by decide, by decide, by decide⟩

/-- The Filling start state for the C10 witness. -/
def st0D10 : St := ⟨[⟨1, 1, 1, 0, 0⟩], 0, 0, Mode.strict, 0, 0, 1, 1, 0, []⟩

/-- The Correcting output after the end-of-stream Filling phase of the C10
witness run. -/
def stD2 : St :=
  ⟨[⟨1, 1, 1, 0, 0⟩, ⟨2, 2, 1, 1, 2⟩, ⟨3, 3, 1, 1, 3⟩, ⟨4, 4, 2, 1, 4⟩],
    0, 5, Mode.strict, 0, 7, 0, 4, 1, []⟩

/-- Witness for C10: the phantom record at the tail after a concrete
end-of-stream cycle. -/
theorem eof_phantom_record_witness :
    (evictAdmitNew stD2).buffer.getLast? =
      some ⟨0, stD2.compT, 1, stD2.stdev, stD2.readIndex⟩ := by
  exact eof_phantom_record.1 cfgD natScore [1, 2, 3, 4] st0D10 stD2
    (by decide) (by decide) (by decide)

end Framefixer
